import Mathlib

/-!
Verification of the reactive-dispatch core of the ecs-rs repository
(`src/src/system/entitysystem.rs`, `src/src/system/interval.rs`,
`src/src/system/mod.rs`).

Entities are modelled by their numeric identifier (`ℕ`): in the source an
`Entity` dereferences (`**entity`) to the unsigned integer used as the
`TrieMap` key, and the stored value is the handle itself.  A `TrieMap<Entity>`
keyed by the entity id, iterated in ascending key order, is modelled by a
strictly sorted `List ℕ`.

The user-supplied strategy (`EntityProcess` / `BulkEntityProcess`) is
observed through the trace of calls the systems forward to it: every
operation returns, next to the updated system state, the list of strategy
calls it performed, in order.
-/

/-- A call forwarded to the inner strategy object of an
`EntitySystem`/`BulkEntitySystem`, as observed by that strategy. -/
inductive SCall where
  | activatedC : ℕ → SCall
  | reactivatedC : ℕ → SCall
  | deactivatedC : ℕ → SCall
  | processC : ℕ → SCall
  | bulkC : List ℕ → SCall
deriving DecidableEq, Repr

/-- `TrieMap::insert` on a map keyed by entity ids, modelled on the sorted
key list: insert `e` at its ordered position, replacing an equal key. -/
def trieInsert (e : ℕ) : List ℕ → List ℕ
  | [] => [e]
  | x :: xs => if e < x then e :: x :: xs else if e = x then e :: xs else x :: trieInsert e xs

/-- `TrieMap::remove`, modelled on the sorted key list: drop the first
occurrence of `e` (the only one, on a sorted list). -/
def trieRemove (e : ℕ) : List ℕ → List ℕ
  | [] => []
  | x :: xs => if e = x then xs else x :: trieRemove e xs

/-- `src/src/system/entitysystem.rs`: `EntitySystem<T: EntityProcess>`.
The `interested : TrieMap<Entity>` field is the sorted key list, the
`aspect : Aspect` field is its `check(entity, world)` predicate; the inner
strategy `T` is observed through call traces. -/
structure EntitySystem (W : Type) where
  interested : List ℕ
  aspect : ℕ → W → Bool

/-- `src/src/system/entitysystem.rs`: `BulkEntitySystem<T: BulkEntityProcess>`,
same representation as `EntitySystem`. -/
structure BulkEntitySystem (W : Type) where
  interested : List ℕ
  aspect : ℕ → W → Bool

/-- `EntitySystem::new(inner, aspect)`: empty interest set. -/
def EntitySystem.new {W : Type} (aspect : ℕ → W → Bool) : EntitySystem W :=
  { interested := [], aspect := aspect }

/-- `BulkEntitySystem::new(inner, aspect)`: empty interest set. -/
def BulkEntitySystem.new {W : Type} (aspect : ℕ → W → Bool) : BulkEntitySystem W :=
  { interested := [], aspect := aspect }

/-- `<EntitySystem as System>::activated`: if the aspect accepts the entity,
insert it and forward `activated` to the strategy. -/
def EntitySystem.activated {W : Type} (s : EntitySystem W) (entity : ℕ) (world : W) :
    EntitySystem W × List SCall :=
  if s.aspect entity world then
    ({ s with interested := trieInsert entity s.interested }, [SCall.activatedC entity])
  else
    (s, [])

/-- `<EntitySystem as System>::reactivated`: membership-driven case split,
re-evaluating the aspect. -/
def EntitySystem.reactivated {W : Type} (s : EntitySystem W) (entity : ℕ) (world : W) :
    EntitySystem W × List SCall :=
  if entity ∈ s.interested then
    if s.aspect entity world then
      (s, [SCall.reactivatedC entity])
    else
      ({ s with interested := trieRemove entity s.interested }, [SCall.deactivatedC entity])
  else if s.aspect entity world then
    ({ s with interested := trieInsert entity s.interested }, [SCall.activatedC entity])
  else
    (s, [])

/-- `<EntitySystem as System>::deactivated`: `interested.remove(..)` returns
`Some` exactly when the key was present, and only then `deactivated` is
forwarded. -/
def EntitySystem.deactivated {W : Type} (s : EntitySystem W) (entity : ℕ) (_world : W) :
    EntitySystem W × List SCall :=
  if entity ∈ s.interested then
    ({ s with interested := trieRemove entity s.interested }, [SCall.deactivatedC entity])
  else
    (s, [])

/-- `<EntitySystem as Active>::process`: one `inner.process(e, c)` call per
interested entity, in the `TrieMap`'s ascending iteration order.  The
`EntityData` context is threaded through unchanged and is not recorded in
the trace. -/
def EntitySystem.process {W : Type} (s : EntitySystem W) : EntitySystem W × List SCall :=
  (s, s.interested.map SCall.processC)

/-- `<BulkEntitySystem as System>::activated` (same body as the
`EntitySystem` impl in the source). -/
def BulkEntitySystem.activated {W : Type} (s : BulkEntitySystem W) (entity : ℕ) (world : W) :
    BulkEntitySystem W × List SCall :=
  if s.aspect entity world then
    ({ s with interested := trieInsert entity s.interested }, [SCall.activatedC entity])
  else
    (s, [])

/-- `<BulkEntitySystem as System>::reactivated` (same body as the
`EntitySystem` impl in the source). -/
def BulkEntitySystem.reactivated {W : Type} (s : BulkEntitySystem W) (entity : ℕ) (world : W) :
    BulkEntitySystem W × List SCall :=
  if entity ∈ s.interested then
    if s.aspect entity world then
      (s, [SCall.reactivatedC entity])
    else
      ({ s with interested := trieRemove entity s.interested }, [SCall.deactivatedC entity])
  else if s.aspect entity world then
    ({ s with interested := trieInsert entity s.interested }, [SCall.activatedC entity])
  else
    (s, [])

/-- `<BulkEntitySystem as System>::deactivated` (same body as the
`EntitySystem` impl in the source). -/
def BulkEntitySystem.deactivated {W : Type} (s : BulkEntitySystem W) (entity : ℕ) (_world : W) :
    BulkEntitySystem W × List SCall :=
  if entity ∈ s.interested then
    ({ s with interested := trieRemove entity s.interested }, [SCall.deactivatedC entity])
  else
    (s, [])

/-- `<BulkEntitySystem as Active>::process`: exactly one
`inner.process(vec, c)` call whose vector collects `interested.values()`
(ascending order), built fresh each call. -/
def BulkEntitySystem.process {W : Type} (s : BulkEntitySystem W) :
    BulkEntitySystem W × List SCall :=
  (s, [SCall.bulkC s.interested])

/-! ### Basic facts about the sorted key list -/

theorem mem_trieInsert (x e : ℕ) (l : List ℕ) :
    x ∈ trieInsert e l ↔ x = e ∨ x ∈ l := by
  induction l with
  | nil => simp [trieInsert]
  | cons y ys ih =>
      by_cases h1 : e < y
      · simp [trieInsert, h1]
      · by_cases h2 : e = y
        · subst h2
          simp only [trieInsert, h1, if_false, eq_self_iff_true, if_true, List.mem_cons]
          tauto
        · simp only [trieInsert, h1, h2, if_false, List.mem_cons, ih]
          tauto

theorem sorted_trieInsert (e : ℕ) (l : List ℕ) (h : l.Sorted (· < ·)) :
    (trieInsert e l).Sorted (· < ·) := by
  induction l with
  | nil => simp [trieInsert]
  | cons y ys ih =>
      rw [List.sorted_cons] at h
      obtain ⟨hy, hys⟩ := h
      by_cases h1 : e < y
      · simp only [trieInsert, h1, if_true]
        rw [List.sorted_cons]
        refine ⟨?_, ?_⟩
        · intro b hb
          rcases List.mem_cons.1 hb with rfl | hb
          · exact h1
          · exact lt_trans h1 (hy b hb)
        · rw [List.sorted_cons]; exact ⟨hy, hys⟩
      · by_cases h2 : e = y
        · subst h2
          simp only [trieInsert, h1, if_false, eq_self_iff_true, if_true]
          rw [List.sorted_cons]
          exact ⟨hy, hys⟩
        · simp only [trieInsert, h1, h2, if_false]
          rw [List.sorted_cons]
          refine ⟨?_, ih hys⟩
          intro b hb
          rcases (mem_trieInsert b e ys).1 hb with rfl | hb
          · omega
          · exact hy b hb

theorem mem_of_mem_trieRemove {x e : ℕ} {l : List ℕ} (h : x ∈ trieRemove e l) :
    x ∈ l := by
  induction l with
  | nil => simp [trieRemove] at h
  | cons y ys ih =>
      by_cases h1 : e = y
      · subst h1
        simp only [trieRemove, if_pos rfl] at h
        exact List.mem_cons_of_mem _ h
      · simp only [trieRemove, h1, if_false, List.mem_cons] at h
        rcases h with rfl | h
        · exact List.mem_cons_self _ _
        · exact List.mem_cons_of_mem _ (ih h)

theorem sorted_trieRemove (e : ℕ) (l : List ℕ) (h : l.Sorted (· < ·)) :
    (trieRemove e l).Sorted (· < ·) := by
  induction l with
  | nil => simp [trieRemove]
  | cons y ys ih =>
      rw [List.sorted_cons] at h
      obtain ⟨hy, hys⟩ := h
      by_cases h1 : e = y
      · simpa [trieRemove, h1] using hys
      · simp only [trieRemove, h1, if_false]
        rw [List.sorted_cons]
        exact ⟨fun b hb => hy b (mem_of_mem_trieRemove hb), ih hys⟩

theorem mem_trieRemove (x e : ℕ) (l : List ℕ) (h : l.Sorted (· < ·)) :
    x ∈ trieRemove e l ↔ x ∈ l ∧ x ≠ e := by
  induction l with
  | nil => simp [trieRemove]
  | cons y ys ih =>
      rw [List.sorted_cons] at h
      obtain ⟨hy, hys⟩ := h
      by_cases h1 : e = y
      · subst h1
        simp only [trieRemove, if_pos rfl, List.mem_cons]
        constructor
        · intro hx
          refine ⟨Or.inr hx, ?_⟩
          intro hxe
          subst hxe
          exact lt_irrefl x (hy x hx)
        · rintro ⟨rfl | hx, hne⟩
          · exact absurd rfl hne
          · exact hx
      · simp only [trieRemove, h1, if_false, List.mem_cons, ih hys]
        constructor
        · rintro (rfl | ⟨hx, hne⟩)
          · exact ⟨Or.inl rfl, fun hc => h1 (hc.symm)⟩
          · exact ⟨Or.inr hx, hne⟩
        · rintro ⟨rfl | hx, hne⟩
          · exact Or.inl rfl
          · exact Or.inr ⟨hx, hne⟩

theorem not_mem_trieRemove_self (e : ℕ) (l : List ℕ) (h : l.Sorted (· < ·)) :
    e ∉ trieRemove e l := by
  intro hc
  exact ((mem_trieRemove e e l h).1 hc).2 rfl

/-! ### Concrete instances used by the witness theorems -/

/-- A small concrete `EntitySystem` over the trivial world: interest set
`{1, 3}`, aspect accepting the even entity ids. -/
def esW : EntitySystem Unit :=
  { interested := [1, 3], aspect := fun e _ => decide (e % 2 = 0) }

/-- A small concrete `BulkEntitySystem` over the trivial world, same data
as `esW`. -/
def bsW : BulkEntitySystem Unit :=
  { interested := [1, 3], aspect := fun e _ => decide (e % 2 = 0) }

/-! ### C2: activated -/

/-- C2: for `EntitySystem` and `BulkEntitySystem`, `activated(entity, world)`
evaluates the aspect; if it returns true the entity is inserted into the
interest set (membership afterwards is exactly `{entity}` joined with the old
set) and exactly one `activated` call is forwarded to the strategy, and if it
returns false the state is unchanged and no strategy call is made. -/
theorem activated_inserts_and_forwards_once {W : Type} (s : EntitySystem W)
    (b : BulkEntitySystem W) (e : ℕ) (w : W) :
    (s.aspect e w = true →
      (∀ x, x ∈ (s.activated e w).1.interested ↔ x = e ∨ x ∈ s.interested) ∧
      (s.activated e w).2 = [SCall.activatedC e]) ∧
    (s.aspect e w = false → (s.activated e w).1 = s ∧ (s.activated e w).2 = []) ∧
    (b.aspect e w = true →
      (∀ x, x ∈ (b.activated e w).1.interested ↔ x = e ∨ x ∈ b.interested) ∧
      (b.activated e w).2 = [SCall.activatedC e]) ∧
    (b.aspect e w = false → (b.activated e w).1 = b ∧ (b.activated e w).2 = []) := by
  refine ⟨fun h => ?_, fun h => ?_, fun h => ?_, fun h => ?_⟩ <;>
    simp [EntitySystem.activated, BulkEntitySystem.activated, h, mem_trieInsert]

/-- Witness for C2 at the concrete systems `esW`, `bsW`, entity `0`
(aspect true there): one `activated` is forwarded by each system. -/
theorem activated_inserts_and_forwards_once_witness :
    (esW.activated 0 ()).2 = [SCall.activatedC 0] ∧
    (bsW.activated 0 ()).2 = [SCall.activatedC 0] :=
  ⟨((activated_inserts_and_forwards_once esW bsW 0 ()).1 (by decide)).2,
   ((activated_inserts_and_forwards_once esW bsW 0 ()).2.2.1 (by decide)).2⟩

/-! ### C1: reactivated -/

/-- C1: for `EntitySystem` and `BulkEntitySystem`, `reactivated(entity, world)`
behaves by case analysis: present and aspect true — state unchanged, exactly
one `reactivated` forwarded; present and aspect false — entity removed,
exactly one `deactivated` forwarded; absent and aspect true — entity inserted,
exactly one `activated` forwarded; absent and aspect false — state unchanged,
no strategy call.  The sortedness hypotheses embody the `TrieMap` key
invariant of the interest set. -/
theorem reactivated_case_analysis {W : Type} (s : EntitySystem W)
    (b : BulkEntitySystem W) (e : ℕ) (w : W)
    (hs : s.interested.Sorted (· < ·)) (hb : b.interested.Sorted (· < ·)) :
    (e ∈ s.interested → s.aspect e w = true →
      (s.reactivated e w).1 = s ∧ (s.reactivated e w).2 = [SCall.reactivatedC e]) ∧
    (e ∈ s.interested → s.aspect e w = false →
      (∀ x, x ∈ (s.reactivated e w).1.interested ↔ x ∈ s.interested ∧ x ≠ e) ∧
      (s.reactivated e w).2 = [SCall.deactivatedC e]) ∧
    (e ∉ s.interested → s.aspect e w = true →
      (∀ x, x ∈ (s.reactivated e w).1.interested ↔ x = e ∨ x ∈ s.interested) ∧
      (s.reactivated e w).2 = [SCall.activatedC e]) ∧
    (e ∉ s.interested → s.aspect e w = false →
      (s.reactivated e w).1 = s ∧ (s.reactivated e w).2 = []) ∧
    (e ∈ b.interested → b.aspect e w = true →
      (b.reactivated e w).1 = b ∧ (b.reactivated e w).2 = [SCall.reactivatedC e]) ∧
    (e ∈ b.interested → b.aspect e w = false →
      (∀ x, x ∈ (b.reactivated e w).1.interested ↔ x ∈ b.interested ∧ x ≠ e) ∧
      (b.reactivated e w).2 = [SCall.deactivatedC e]) ∧
    (e ∉ b.interested → b.aspect e w = true →
      (∀ x, x ∈ (b.reactivated e w).1.interested ↔ x = e ∨ x ∈ b.interested) ∧
      (b.reactivated e w).2 = [SCall.activatedC e]) ∧
    (e ∉ b.interested → b.aspect e w = false →
      (b.reactivated e w).1 = b ∧ (b.reactivated e w).2 = []) := by
  refine ⟨fun h1 h2 => ?_, fun h1 h2 => ?_, fun h1 h2 => ?_, fun h1 h2 => ?_,
          fun h1 h2 => ?_, fun h1 h2 => ?_, fun h1 h2 => ?_, fun h1 h2 => ?_⟩
  · simp [EntitySystem.reactivated, h1, h2]
  · have he : s.reactivated e w =
        ({ s with interested := trieRemove e s.interested }, [SCall.deactivatedC e]) := by
      simp [EntitySystem.reactivated, h1, h2]
    rw [he]
    exact ⟨fun x => mem_trieRemove x e s.interested hs, rfl⟩
  · have he : s.reactivated e w =
        ({ s with interested := trieInsert e s.interested }, [SCall.activatedC e]) := by
      simp [EntitySystem.reactivated, h1, h2]
    rw [he]
    exact ⟨fun x => mem_trieInsert x e s.interested, rfl⟩
  · have he : s.reactivated e w = (s, []) := by
      simp [EntitySystem.reactivated, h1, h2]
    rw [he]
    exact ⟨rfl, rfl⟩
  · simp [BulkEntitySystem.reactivated, h1, h2]
  · have he : b.reactivated e w =
        ({ b with interested := trieRemove e b.interested }, [SCall.deactivatedC e]) := by
      simp [BulkEntitySystem.reactivated, h1, h2]
    rw [he]
    exact ⟨fun x => mem_trieRemove x e b.interested hb, rfl⟩
  · have he : b.reactivated e w =
        ({ b with interested := trieInsert e b.interested }, [SCall.activatedC e]) := by
      simp [BulkEntitySystem.reactivated, h1, h2]
    rw [he]
    exact ⟨fun x => mem_trieInsert x e b.interested, rfl⟩
  · have he : b.reactivated e w = (b, []) := by
      simp [BulkEntitySystem.reactivated, h1, h2]
    rw [he]
    exact ⟨rfl, rfl⟩

/-- Witness for C1 at `esW`, `bsW`, entity `3` (present, aspect false):
each hypothesis is discharged concretely and the removal case is observed. -/
theorem reactivated_case_analysis_witness :
    (esW.reactivated 3 ()).2 = [SCall.deactivatedC 3] ∧
    (bsW.reactivated 3 ()).2 = [SCall.deactivatedC 3] :=
  ⟨((reactivated_case_analysis esW bsW 3 () (by decide) (by decide)).2.1
      (by decide) (by decide)).2,
   ((reactivated_case_analysis esW bsW 3 () (by decide) (by decide)).2.2.2.2.2.1
      (by decide) (by decide)).2⟩

/-! ### C3: deactivated is idempotent -/

/-- C3: for `EntitySystem` and `BulkEntitySystem`, if the entity is present
`deactivated` removes it and forwards exactly one `deactivated`; if absent it
is a no-op; and a second consecutive `deactivated` for the same entity leaves
the state unchanged and forwards nothing. -/
theorem deactivated_idempotent {W : Type} (s : EntitySystem W)
    (b : BulkEntitySystem W) (e : ℕ) (w : W)
    (hs : s.interested.Sorted (· < ·)) (hb : b.interested.Sorted (· < ·)) :
    (e ∈ s.interested →
      (s.deactivated e w).2 = [SCall.deactivatedC e] ∧
      (∀ x, x ∈ (s.deactivated e w).1.interested ↔ x ∈ s.interested ∧ x ≠ e)) ∧
    (e ∉ s.interested → (s.deactivated e w).1 = s ∧ (s.deactivated e w).2 = []) ∧
    ((s.deactivated e w).1.deactivated e w = ((s.deactivated e w).1, [])) ∧
    (e ∈ b.interested →
      (b.deactivated e w).2 = [SCall.deactivatedC e] ∧
      (∀ x, x ∈ (b.deactivated e w).1.interested ↔ x ∈ b.interested ∧ x ≠ e)) ∧
    (e ∉ b.interested → (b.deactivated e w).1 = b ∧ (b.deactivated e w).2 = []) ∧
    ((b.deactivated e w).1.deactivated e w = ((b.deactivated e w).1, [])) := by
  refine ⟨fun h => ?_, fun h => ?_, ?_, fun h => ?_, fun h => ?_, ?_⟩
  · have he : s.deactivated e w =
        ({ s with interested := trieRemove e s.interested }, [SCall.deactivatedC e]) := by
      simp [EntitySystem.deactivated, h]
    rw [he]
    exact ⟨rfl, fun x => mem_trieRemove x e s.interested hs⟩
  · simp [EntitySystem.deactivated, h]
  · by_cases h : e ∈ s.interested
    · have he : s.deactivated e w =
          ({ s with interested := trieRemove e s.interested }, [SCall.deactivatedC e]) := by
        simp [EntitySystem.deactivated, h]
      rw [he]
      simp [EntitySystem.deactivated, not_mem_trieRemove_self e s.interested hs]
    · have he : s.deactivated e w = (s, []) := by
        simp [EntitySystem.deactivated, h]
      rw [he]
      simp [EntitySystem.deactivated, h]
  · have he : b.deactivated e w =
        ({ b with interested := trieRemove e b.interested }, [SCall.deactivatedC e]) := by
      simp [BulkEntitySystem.deactivated, h]
    rw [he]
    exact ⟨rfl, fun x => mem_trieRemove x e b.interested hb⟩
  · simp [BulkEntitySystem.deactivated, h]
  · by_cases h : e ∈ b.interested
    · have he : b.deactivated e w =
          ({ b with interested := trieRemove e b.interested }, [SCall.deactivatedC e]) := by
        simp [BulkEntitySystem.deactivated, h]
      rw [he]
      simp [BulkEntitySystem.deactivated, not_mem_trieRemove_self e b.interested hb]
    · have he : b.deactivated e w = (b, []) := by
        simp [BulkEntitySystem.deactivated, h]
      rw [he]
      simp [BulkEntitySystem.deactivated, h]

/-- Witness for C3 at `esW`, `bsW`, entity `1` (present): the second
consecutive `deactivated` forwards nothing. -/
theorem deactivated_idempotent_witness :
    ((esW.deactivated 1 ()).1.deactivated 1 () = ((esW.deactivated 1 ()).1, [])) ∧
    ((bsW.deactivated 1 ()).1.deactivated 1 () = ((bsW.deactivated 1 ()).1, [])) :=
  ⟨(deactivated_idempotent esW bsW 1 () (by decide) (by decide)).2.2.1,
   (deactivated_idempotent esW bsW 1 () (by decide) (by decide)).2.2.2.2.2⟩

/-! ### C6: bulk snapshot completeness -/

/-- C6: every call to `BulkEntitySystem.process` forwards exactly one call to
the bulk strategy, whose argument is the ordered sequence of exactly the
entities currently in the interest set (ascending under the `TrieMap`
invariant), and leaves the state unchanged; an empty interest set still
yields exactly one call with the empty sequence. -/
theorem bulk_process_snapshot {W : Type} (b : BulkEntitySystem W)
    (hb : b.interested.Sorted (· < ·)) :
    b.process.2 = [SCall.bulkC b.interested] ∧
    b.process.1 = b ∧
    b.interested.Sorted (· < ·) ∧
    (b.interested = [] → b.process.2 = [SCall.bulkC []]) := by
  refine ⟨rfl, rfl, hb, fun h => ?_⟩
  simp [BulkEntitySystem.process, h]

/-- Witness for C6 at `bsW`: exactly one bulk call carrying the whole
interest set. -/
theorem bulk_process_snapshot_witness :
    bsW.process.2 = [SCall.bulkC bsW.interested] :=
  (bulk_process_snapshot bsW (by decide)).1

/-! ### C7: per-entity completeness -/

/-- C7: every call to `EntitySystem.process` invokes the per-entity strategy
exactly once per entity currently in the interest set — count one for members,
zero for non-members — sequentially in the set's ascending iteration order,
and makes zero calls on an empty set. -/
theorem entity_process_each {W : Type} (s : EntitySystem W)
    (hs : s.interested.Sorted (· < ·)) :
    s.process.2 = s.interested.map SCall.processC ∧
    s.process.1 = s ∧
    (∀ e, s.process.2.count (SCall.processC e) =
      if e ∈ s.interested then 1 else 0) ∧
    (s.interested = [] → s.process.2 = []) := by
  have hinj : Function.Injective SCall.processC := by
    intro a b hab
    simpa using hab
  refine ⟨rfl, rfl, fun e => ?_, fun h => ?_⟩
  · have hcnt : (s.interested.map SCall.processC).count (SCall.processC e) =
        s.interested.count e :=
      List.count_map_of_injective s.interested SCall.processC hinj e
    show (s.interested.map SCall.processC).count (SCall.processC e) = _
    rw [hcnt]
    by_cases hmem : e ∈ s.interested
    · rw [if_pos hmem]
      exact List.count_eq_one_of_mem hs.nodup hmem
    · rw [if_neg hmem]
      exact List.count_eq_zero.mpr hmem
  · simp [EntitySystem.process, h]

/-- Witness for C7 at `esW`: the forwarded calls are exactly the mapped
interest set, and entity 1 is processed exactly once. -/
theorem entity_process_each_witness :
    esW.process.2 = esW.interested.map SCall.processC ∧
    esW.process.2.count (SCall.processC 1) = if 1 ∈ esW.interested then 1 else 0 :=
  ⟨(entity_process_each esW (by decide)).1,
   (entity_process_each esW (by decide)).2.2.1 1⟩

/-!
### The `System` / `Process` capability interfaces and `IntervalSystem`

`src/src/system/mod.rs` and `src/src/system/interval.rs` are from a revision
of the crate with schema-parameterized traits: lifecycle hooks take an
`EntityData` handle (`E`), the components (`C`) and the services (`S`);
`process` takes a `DataHelper` context (`Ctx`).  A trait object implementing
the interface over an implementing state `σ` is modelled as a record of its
methods.
-/

/-- `src/src/system/mod.rs`: the `System` trait over implementing state `σ`.
`activated` and `deactivated` default to no-ops; `reactivated` defaults to
`deactivated` followed by `activated` (the fields are ordered so the default
can refer to the other two; the source declares `reactivated` second). -/
structure SystemTrait (E C S σ : Type) where
  activated : σ → E → C → S → σ := fun st _ _ _ => st
  deactivated : σ → E → C → S → σ := fun st _ _ _ => st
  reactivated : σ → E → C → S → σ :=
    fun st e c sv => activated (deactivated st e c sv) e c sv

/-- Modelled from the spec: the `Process` capability interface.  Its
`process` operation is `src/src/system/mod.rs` lines 46-50; the `is_active`
query with default result `true` is missing from the checked-in `mod.rs`
revision — only its override in `IntervalSystem`
(`src/src/system/interval.rs` lines 60-63) appears under `src/` — so that
default is taken from the spec ("an `is_active` query (default true)"). -/
structure ProcessTrait (E C S σ Ctx : Type) extends SystemTrait E C S σ where
  process : σ → Ctx → σ
  is_active : σ → Bool := fun _ => true

/-- `src/src/system/interval.rs`: `IntervalSystem<T: Process>`.  `interval`
and `ticker` are `u8` values, modelled as naturals in `[0, 256)` with the
wrapping increment made explicit in `process`. -/
structure IntervalSystem (σ : Type) where
  inner : σ
  interval : ℕ
  ticker : ℕ

/-- `IntervalSystem::new(system, interval)`: ticker initialized to zero. -/
def IntervalSystem.new {σ : Type} (system : σ) (interval : ℕ) : IntervalSystem σ :=
  { inner := system, interval := interval, ticker := 0 }

/-- `<IntervalSystem as Process>::process`: increment the ticker (u8
wrapping arithmetic, hence the explicit `% 256`); when it reaches
`interval`, reset it to zero and invoke `inner.process(c)` once. -/
def IntervalSystem.process {E C S σ Ctx : Type} (st : IntervalSystem σ)
    (I : ProcessTrait E C S σ Ctx) (c : Ctx) : IntervalSystem σ :=
  let t := (st.ticker + 1) % 256
  if t = st.interval then
    { st with ticker := 0, inner := I.process st.inner c }
  else
    { st with ticker := t }

/-- `<IntervalSystem as System>::activated`: unconditional pass-through to
`inner.activated(e, c, s)`. -/
def IntervalSystem.activated {E C S σ Ctx : Type} (st : IntervalSystem σ)
    (I : ProcessTrait E C S σ Ctx) (e : E) (c : C) (sv : S) : IntervalSystem σ :=
  { st with inner := I.activated st.inner e c sv }

/-- `<IntervalSystem as System>::reactivated`: unconditional pass-through to
`inner.reactivated(e, c, s)`. -/
def IntervalSystem.reactivated {E C S σ Ctx : Type} (st : IntervalSystem σ)
    (I : ProcessTrait E C S σ Ctx) (e : E) (c : C) (sv : S) : IntervalSystem σ :=
  { st with inner := I.reactivated st.inner e c sv }

/-- `<IntervalSystem as System>::deactivated`: unconditional pass-through to
`inner.deactivated(e, c, s)`. -/
def IntervalSystem.deactivated {E C S σ Ctx : Type} (st : IntervalSystem σ)
    (I : ProcessTrait E C S σ Ctx) (e : E) (c : C) (sv : S) : IntervalSystem σ :=
  { st with inner := I.deactivated st.inner e c sv }

/-- `<IntervalSystem as System>::is_active`: pass-through query to
`inner.is_active()`. -/
def IntervalSystem.is_active {E C S σ Ctx : Type} (st : IntervalSystem σ)
    (I : ProcessTrait E C S σ Ctx) : Bool :=
  I.is_active st.inner

/-- Iterate `IntervalSystem.process` (the scheduler's consecutive update
calls), with a fixed context. -/
def IntervalSystem.runProcess {E C S σ Ctx : Type} (I : ProcessTrait E C S σ Ctx)
    (c : Ctx) : IntervalSystem σ → ℕ → IntervalSystem σ
  | st, 0 => st
  | st, k + 1 => (IntervalSystem.runProcess I c st k).process I c

/-- An inner `Process` whose implementing state counts its own `process`
invocations; its lifecycle hooks and `is_active` keep their defaults. -/
def countProcess : ProcessTrait Unit Unit Unit ℕ Unit :=
  { process := fun n _ => n + 1 }

/-- Arithmetic for one ticker step: with `0 < N ≤ 255` the wrapping `% 256`
is the identity on `k % N + 1`, and firing (`k % N + 1 = N`) matches
divisibility of `k + 1` by `N`. -/
theorem interval_mod_step (N k : ℕ) (h1 : 0 < N) (h2 : N ≤ 255) :
    (k % N + 1) % 256 = k % N + 1 ∧
    (k % N + 1 = N → (k + 1) % N = 0 ∧ (k + 1) / N = k / N + 1) ∧
    (k % N + 1 ≠ N → (k + 1) % N = k % N + 1 ∧ (k + 1) / N = k / N) := by
  have hlt : k % N < N := Nat.mod_lt _ h1
  have hdm : N * (k / N) + k % N = k := Nat.div_add_mod k N
  refine ⟨Nat.mod_eq_of_lt (by omega), fun hf => ?_, fun hnf => ?_⟩
  · have hk1 : k + 1 = N * (k / N + 1) := by
      rw [Nat.mul_succ]
      omega
    constructor
    · rw [hk1]
      exact Nat.mul_mod_right N (k / N + 1)
    · rw [hk1]
      exact Nat.mul_div_cancel_left _ h1
  · have hr1 : k % N + 1 < N := by omega
    have hk1 : k + 1 = k % N + 1 + N * (k / N) := by omega
    constructor
    · rw [hk1, Nat.add_mul_mod_self_left]
      exact Nat.mod_eq_of_lt hr1
    · rw [hk1, Nat.add_mul_div_left _ _ h1, Nat.div_eq_of_lt hr1, Nat.zero_add]

/-- Interval and ticker evolution under iterated `process`, for an arbitrary
inner `Process`: starting from a zero ticker, after `k` calls the ticker is
`k % interval`. -/
theorem runProcess_ticker {E C S σ Ctx : Type} (I : ProcessTrait E C S σ Ctx)
    (c : Ctx) (st : IntervalSystem σ) (h0 : st.ticker = 0)
    (h1 : 0 < st.interval) (h2 : st.interval ≤ 255) :
    ∀ k, (IntervalSystem.runProcess I c st k).interval = st.interval ∧
      (IntervalSystem.runProcess I c st k).ticker = k % st.interval := by
  intro k
  induction k with
  | zero =>
      simp [IntervalSystem.runProcess, h0, Nat.zero_mod]
  | succ k ih =>
      obtain ⟨ihi, iht⟩ := ih
      obtain ⟨hwrap, hfire, hnofire⟩ := interval_mod_step st.interval k h1 h2
      show ((IntervalSystem.runProcess I c st k).process I c).interval = _ ∧
        ((IntervalSystem.runProcess I c st k).process I c).ticker = _
      rw [IntervalSystem.process]
      simp only [iht, ihi, hwrap]
      by_cases hf : k % st.interval + 1 = st.interval
      · rw [if_pos hf]
        exact ⟨rfl, ((hfire hf).1).symm⟩
      · rw [if_neg hf]
        exact ⟨rfl, ((hnofire hf).1).symm⟩

/-- Full state evolution for the counting inner process: after `k` calls the
inner counter holds `n0 + k / N` and the ticker holds `k % N`. -/
theorem countProcess_run_eq (N : ℕ) (h1 : 0 < N) (h2 : N ≤ 255) (n0 : ℕ) :
    ∀ k, IntervalSystem.runProcess countProcess () (IntervalSystem.new n0 N) k =
      { inner := n0 + k / N, interval := N, ticker := k % N } := by
  intro k
  induction k with
  | zero =>
      simp [IntervalSystem.runProcess, IntervalSystem.new, Nat.zero_div, Nat.zero_mod]
  | succ k ih =>
      obtain ⟨hwrap, hfire, hnofire⟩ := interval_mod_step N k h1 h2
      show (IntervalSystem.runProcess countProcess () (IntervalSystem.new n0 N) k).process
        countProcess () = _
      rw [ih, IntervalSystem.process]
      simp only [hwrap]
      by_cases hf : k % N + 1 = N
      · rw [if_pos hf]
        obtain ⟨hm, hd⟩ := hfire hf
        simp only [countProcess, hm, hd]
        rw [Nat.add_assoc]
      · rw [if_neg hf]
        obtain ⟨hm, hd⟩ := hnofire hf
        simp only [hm, hd]

/-! ### C4: exact-period throttling -/

/-- C4: for an `IntervalSystem` with positive interval `N` (a `u8`, so at
most 255) and a fresh zero ticker, across `M` consecutive `process` calls the
inner `process` is invoked exactly `M / N` times, the ticker always holds
`M % N` (so it is zero right after each firing), and call number `k` fires —
increments the inner invocation count — exactly when `N` divides `k`. -/
theorem interval_exact_period (N M : ℕ) (h1 : 0 < N) (h2 : N ≤ 255) :
    (IntervalSystem.runProcess countProcess () (IntervalSystem.new 0 N) M).inner = M / N ∧
    (IntervalSystem.runProcess countProcess () (IntervalSystem.new 0 N) M).ticker = M % N ∧
    (∀ k, 0 < k → k ≤ M →
      ((IntervalSystem.runProcess countProcess () (IntervalSystem.new 0 N) k).inner =
        (IntervalSystem.runProcess countProcess () (IntervalSystem.new 0 N) (k - 1)).inner + 1
        ↔ N ∣ k)) := by
  refine ⟨?_, ?_, fun k hk _ => ?_⟩
  · rw [countProcess_run_eq N h1 h2 0 M]
    exact Nat.zero_add _
  · rw [countProcess_run_eq N h1 h2 0 M]
  · rw [countProcess_run_eq N h1 h2 0 k, countProcess_run_eq N h1 h2 0 (k - 1)]
    have hk1 : k = k - 1 + 1 := by omega
    have hsd : k / N = (k - 1) / N + if N ∣ k then 1 else 0 := by
      conv_lhs => rw [hk1]
      rw [Nat.succ_div]
      rw [← hk1]
    by_cases hd : N ∣ k
    · rw [if_pos hd] at hsd
      simp only [Nat.zero_add, hsd, hd, iff_true]
    · rw [if_neg hd] at hsd
      simp only [Nat.zero_add, hsd, hd, iff_false, Nat.add_zero]
      omega

/-- Witness for C4 at `N = 3`, `M = 7`: the inner process has run
`7 / 3 = 2` times and call 6 fired while the ticker returned to zero. -/
theorem interval_exact_period_witness :
    0 < 3 ∧ 3 ≤ 255 ∧
    (IntervalSystem.runProcess countProcess () (IntervalSystem.new 0 3) 7).inner = 7 / 3 :=
  ⟨by decide, by decide, (interval_exact_period 3 7 (by decide) (by decide)).1⟩

/-! ### C5: lifecycle pass-through independence -/

/-- C5: for every ticker state of an `IntervalSystem`, each of `activated`,
`reactivated`, `deactivated` and `is_active` forwards exactly one
corresponding call to the inner system with the same arguments — the inner
state after the call is exactly one application of the corresponding inner
method — unconditionally and immediately, for every inner implementation and
without touching the ticker or the interval. -/
theorem interval_lifecycle_passthrough {E C S σ Ctx : Type}
    (I : ProcessTrait E C S σ Ctx) (st : IntervalSystem σ) (e : E) (c : C) (sv : S) :
    (st.activated I e c sv).inner = I.activated st.inner e c sv ∧
    (st.activated I e c sv).ticker = st.ticker ∧
    (st.activated I e c sv).interval = st.interval ∧
    (st.reactivated I e c sv).inner = I.reactivated st.inner e c sv ∧
    (st.reactivated I e c sv).ticker = st.ticker ∧
    (st.reactivated I e c sv).interval = st.interval ∧
    (st.deactivated I e c sv).inner = I.deactivated st.inner e c sv ∧
    (st.deactivated I e c sv).ticker = st.ticker ∧
    (st.deactivated I e c sv).interval = st.interval ∧
    st.is_active I = I.is_active st.inner :=
  ⟨rfl, rfl, rfl, rfl, rfl, rfl, rfl, rfl, rfl, rfl⟩

/-! ### C9: the ticker bound -/

/-- C9 counterexample: for an `IntervalSystem` constructed with interval `0`
(the constructor accepts any `u8`), already after one `process` call the
ticker is `1`, which does not lie in the empty range `[0, 0)` — so the bound
does not hold for *any* interval. -/
theorem ticker_bound_counterexample :
    (IntervalSystem.new 0 0 : IntervalSystem ℕ).ticker = 0 ∧
    (IntervalSystem.runProcess countProcess () (IntervalSystem.new 0 0) 1).ticker = 1 ∧
    ¬ ((IntervalSystem.runProcess countProcess () (IntervalSystem.new 0 0) 1).ticker <
        (IntervalSystem.runProcess countProcess () (IntervalSystem.new 0 0) 1).interval) := by
  refine ⟨rfl, rfl, ?_⟩
  decide

/-- C9 (amended to the spec's construction constraint of a positive `u8`
interval): for an `IntervalSystem` constructed with any positive interval
`N ≤ 255` the ticker starts at zero, and after every number of `process`
calls, for every inner implementation, its value stays in `[0, interval)`. -/
theorem ticker_bounded {E C S σ Ctx : Type} (I : ProcessTrait E C S σ Ctx) (c : Ctx)
    (inner0 : σ) (N : ℕ) (h1 : 0 < N) (h2 : N ≤ 255) (M : ℕ) :
    (IntervalSystem.new inner0 N).ticker = 0 ∧
    (IntervalSystem.runProcess I c (IntervalSystem.new inner0 N) M).ticker <
      (IntervalSystem.runProcess I c (IntervalSystem.new inner0 N) M).interval := by
  obtain ⟨hi, ht⟩ := runProcess_ticker I c (IntervalSystem.new inner0 N) rfl h1 h2 M
  refine ⟨rfl, ?_⟩
  rw [hi, ht]
  exact Nat.mod_lt _ h1

/-- Witness for C9 (amended) at `N = 5`, `M = 7`: ticker `7 % 5 = 2 < 5`. -/
theorem ticker_bounded_witness :
    0 < 5 ∧ 5 ≤ 255 ∧
    ((IntervalSystem.new 0 5 : IntervalSystem ℕ).ticker = 0 ∧
      (IntervalSystem.runProcess countProcess () (IntervalSystem.new 0 5) 7).ticker <
        (IntervalSystem.runProcess countProcess () (IntervalSystem.new 0 5) 7).interval) :=
  ⟨by decide, by decide, ticker_bounded countProcess () 0 5 (by decide) (by decide) 7⟩

/-! ### C10: the Process interface -/

/-- C10: the `Process` capability interface extends `System` with the
periodic `process(context)` operation and provides an `is_active` query whose
default result is `true` on every state: a `ProcessTrait` built from any
`System` implementation and any `process` body, leaving `is_active` to its
default, answers `true` everywhere, carries exactly the given `process`
operation, and extends exactly the given `System` implementation.
(`is_active` itself is modelled from the spec, see `ProcessTrait`.) -/
theorem process_trait_is_active_default {E C S σ Ctx : Type}
    (base : SystemTrait E C S σ) (p : σ → Ctx → σ) (st : σ) :
    ({ toSystemTrait := base, process := p } : ProcessTrait E C S σ Ctx).is_active st = true ∧
    ({ toSystemTrait := base, process := p } : ProcessTrait E C S σ Ctx).process = p ∧
    ({ toSystemTrait := base, process := p } : ProcessTrait E C S σ Ctx).toSystemTrait = base :=
  ⟨rfl, rfl, rfl⟩

/-!
### Lifecycle-call sequences delivered by the scheduler

The spec's driving world/scheduler feeds `activated`/`reactivated`/
`deactivated` transitions into the systems one at a time; a finite such
sequence is a list of events, and a run accumulates the strategy trace.
-/

/-- A lifecycle transition delivered by the external scheduler/world. -/
inductive WEvent (W : Type) where
  | act : ℕ → W → WEvent W
  | react : ℕ → W → WEvent W
  | deact : ℕ → W → WEvent W

/-- Dispatch one scheduler event to the corresponding `EntitySystem` hook. -/
def EntitySystem.stepEv {W : Type} (s : EntitySystem W) :
    WEvent W → EntitySystem W × List SCall
  | WEvent.act e w => s.activated e w
  | WEvent.react e w => s.reactivated e w
  | WEvent.deact e w => s.deactivated e w

/-- Run a finite sequence of scheduler events through an `EntitySystem`,
accumulating the strategy trace. -/
def EntitySystem.runEvents {W : Type} :
    EntitySystem W → List (WEvent W) → EntitySystem W × List SCall
  | s, [] => (s, [])
  | s, ev :: rest =>
      ((EntitySystem.runEvents (s.stepEv ev).1 rest).1,
        (s.stepEv ev).2 ++ (EntitySystem.runEvents (s.stepEv ev).1 rest).2)

/-- Scheduler consistency (the world's contract in the spec): `activated` is
never delivered for an entity already in the interest set. -/
def EntitySystem.schedOK {W : Type} : EntitySystem W → List (WEvent W) → Bool
  | _, [] => true
  | s, ev :: rest =>
      (match ev with
        | WEvent.act f _ => decide (f ∉ s.interested)
        | _ => true) &&
      EntitySystem.schedOK (s.stepEv ev).1 rest

/-- Dispatch one scheduler event to the corresponding `BulkEntitySystem`
hook. -/
def BulkEntitySystem.stepEv {W : Type} (s : BulkEntitySystem W) :
    WEvent W → BulkEntitySystem W × List SCall
  | WEvent.act e w => s.activated e w
  | WEvent.react e w => s.reactivated e w
  | WEvent.deact e w => s.deactivated e w

/-- Run a finite sequence of scheduler events through a `BulkEntitySystem`. -/
def BulkEntitySystem.runEvents {W : Type} :
    BulkEntitySystem W → List (WEvent W) → BulkEntitySystem W × List SCall
  | s, [] => (s, [])
  | s, ev :: rest =>
      ((BulkEntitySystem.runEvents (s.stepEv ev).1 rest).1,
        (s.stepEv ev).2 ++ (BulkEntitySystem.runEvents (s.stepEv ev).1 rest).2)

/-- Scheduler consistency for a `BulkEntitySystem` run. -/
def BulkEntitySystem.schedOK {W : Type} : BulkEntitySystem W → List (WEvent W) → Bool
  | _, [] => true
  | s, ev :: rest =>
      (match ev with
        | WEvent.act f _ => decide (f ∉ s.interested)
        | _ => true) &&
      BulkEntitySystem.schedOK (s.stepEv ev).1 rest

/-!
### The alternation monitor

`altRun e (some b) trace` scans a strategy trace: state `some true` after a
prefix means the strategy last saw `activated e` (without a later
`deactivated e`), `some false` means the opposite, and `none` records a
violation — an `activated e` forward while already activated, or a
`deactivated e` forward while not.  A run that never violates alternation in
particular never forwards two `activated e` without an intervening
`deactivated e`.
-/

/-- One monitor step over a single forwarded strategy call. -/
def altStep (e : ℕ) : Option Bool → SCall → Option Bool
  | none, _ => none
  | some b, SCall.activatedC f => if f = e then (if b then none else some true) else some b
  | some b, SCall.deactivatedC f => if f = e then (if b then some false else none) else some b
  | some b, _ => some b

/-- Run the alternation monitor over a trace. -/
def altRun (e : ℕ) (b : Option Bool) (tr : List SCall) : Option Bool :=
  tr.foldl (altStep e) b

theorem altRun_nil (e : ℕ) (b : Option Bool) : altRun e b [] = b := rfl

theorem altRun_cons (e : ℕ) (b : Option Bool) (c : SCall) (tr : List SCall) :
    altRun e b (c :: tr) = altRun e (altStep e b c) tr := rfl

theorem altRun_append (e : ℕ) (b : Option Bool) (t1 t2 : List SCall) :
    altRun e b (t1 ++ t2) = altRun e (altRun e b t1) t2 := by
  simp [altRun, List.foldl_append]

theorem altRun_none (e : ℕ) (tr : List SCall) : altRun e none tr = none := by
  induction tr with
  | nil => rfl
  | cons c tr ih => rw [altRun_cons]; exact ih

/-- Monitor step for a forwarded `activated f` out of a set not containing
`f`, landing in a set whose membership adds exactly `f`. -/
theorem altStep_activated (e f : ℕ) (l l2 : List ℕ) (hf : f ∉ l)
    (hmem : ∀ x, x ∈ l2 ↔ x = f ∨ x ∈ l) :
    altStep e (some (decide (e ∈ l))) (SCall.activatedC f) = some (decide (e ∈ l2)) := by
  by_cases hef : f = e
  · subst hef
    have hb : decide (f ∈ l) = false := decide_eq_false hf
    have h2 : decide (f ∈ l2) = true := decide_eq_true ((hmem f).2 (Or.inl rfl))
    simp [altStep, hb, h2]
  · have h2 : (e ∈ l2) ↔ (e ∈ l) := by
      rw [hmem e]
      constructor
      · rintro (rfl | h)
        · exact absurd rfl hef
        · exact h
      · exact Or.inr
    simp [altStep, hef, decide_eq_decide.2 h2]

/-- Monitor step for a forwarded `deactivated f` out of a set containing
`f`, landing in a set whose membership removes exactly `f`. -/
theorem altStep_deactivated (e f : ℕ) (l l2 : List ℕ) (hf : f ∈ l)
    (hmem : ∀ x, x ∈ l2 ↔ x ∈ l ∧ x ≠ f) :
    altStep e (some (decide (e ∈ l))) (SCall.deactivatedC f) = some (decide (e ∈ l2)) := by
  by_cases hef : f = e
  · subst hef
    have hb : decide (f ∈ l) = true := decide_eq_true hf
    have h2 : decide (f ∈ l2) = false := by
      apply decide_eq_false
      intro hc
      exact ((hmem f).1 hc).2 rfl
    simp [altStep, hb, h2]
  · have h2 : (e ∈ l2) ↔ (e ∈ l) := by
      rw [hmem e]
      constructor
      · exact fun h => h.1
      · exact fun h => ⟨h, fun hc => hef hc.symm⟩
    simp [altStep, hef, decide_eq_decide.2 h2]

/-- One scheduler event preserves the sorted-set invariant and advances the
alternation monitor from the membership bit before to the membership bit
after, provided `activated` is not delivered for a present entity. -/
theorem stepEv_altRun {W : Type} (s : EntitySystem W) (ev : WEvent W) (e : ℕ)
    (hs : s.interested.Sorted (· < ·))
    (hg : ∀ f w, ev = WEvent.act f w → f ∉ s.interested) :
    (s.stepEv ev).1.interested.Sorted (· < ·) ∧
    altRun e (some (decide (e ∈ s.interested))) (s.stepEv ev).2 =
      some (decide (e ∈ (s.stepEv ev).1.interested)) := by
  cases ev with
  | act f w =>
      have hf : f ∉ s.interested := hg f w rfl
      by_cases h : s.aspect f w
      · have he : s.stepEv (WEvent.act f w) =
            ({ s with interested := trieInsert f s.interested }, [SCall.activatedC f]) := by
          simp [EntitySystem.stepEv, EntitySystem.activated, h]
        rw [he]
        refine ⟨sorted_trieInsert f s.interested hs, ?_⟩
        rw [altRun_cons, altRun_nil]
        exact altStep_activated e f s.interested _ hf
          (fun x => mem_trieInsert x f s.interested)
      · have he : s.stepEv (WEvent.act f w) = (s, []) := by
          simp [EntitySystem.stepEv, EntitySystem.activated, h]
        rw [he]
        exact ⟨hs, rfl⟩
  | react f w =>
      by_cases hm : f ∈ s.interested
      · by_cases h : s.aspect f w
        · have he : s.stepEv (WEvent.react f w) = (s, [SCall.reactivatedC f]) := by
            simp [EntitySystem.stepEv, EntitySystem.reactivated, hm, h]
          rw [he]
          refine ⟨hs, ?_⟩
          rw [altRun_cons, altRun_nil]
          rfl
        · have he : s.stepEv (WEvent.react f w) =
              ({ s with interested := trieRemove f s.interested }, [SCall.deactivatedC f]) := by
            simp [EntitySystem.stepEv, EntitySystem.reactivated, hm, h]
          rw [he]
          refine ⟨sorted_trieRemove f s.interested hs, ?_⟩
          rw [altRun_cons, altRun_nil]
          exact altStep_deactivated e f s.interested _ hm
            (fun x => mem_trieRemove x f s.interested hs)
      · by_cases h : s.aspect f w
        · have he : s.stepEv (WEvent.react f w) =
              ({ s with interested := trieInsert f s.interested }, [SCall.activatedC f]) := by
            simp [EntitySystem.stepEv, EntitySystem.reactivated, hm, h]
          rw [he]
          refine ⟨sorted_trieInsert f s.interested hs, ?_⟩
          rw [altRun_cons, altRun_nil]
          exact altStep_activated e f s.interested _ hm
            (fun x => mem_trieInsert x f s.interested)
        · have he : s.stepEv (WEvent.react f w) = (s, []) := by
            simp [EntitySystem.stepEv, EntitySystem.reactivated, hm, h]
          rw [he]
          exact ⟨hs, rfl⟩
  | deact f w =>
      by_cases hm : f ∈ s.interested
      · have he : s.stepEv (WEvent.deact f w) =
            ({ s with interested := trieRemove f s.interested }, [SCall.deactivatedC f]) := by
          simp [EntitySystem.stepEv, EntitySystem.deactivated, hm]
        rw [he]
        refine ⟨sorted_trieRemove f s.interested hs, ?_⟩
        rw [altRun_cons, altRun_nil]
        exact altStep_deactivated e f s.interested _ hm
          (fun x => mem_trieRemove x f s.interested hs)
      · have he : s.stepEv (WEvent.deact f w) = (s, []) := by
          simp [EntitySystem.stepEv, EntitySystem.deactivated, hm]
        rw [he]
        exact ⟨hs, rfl⟩

/-- Decompose scheduler consistency over the first event. -/
theorem schedOK_cons {W : Type} (s : EntitySystem W) (ev : WEvent W)
    (rest : List (WEvent W)) (h : EntitySystem.schedOK s (ev :: rest) = true) :
    (∀ f w, ev = WEvent.act f w → f ∉ s.interested) ∧
    EntitySystem.schedOK (s.stepEv ev).1 rest = true := by
  cases ev with
  | act f w =>
      simp only [EntitySystem.schedOK, Bool.and_eq_true, decide_eq_true_eq] at h
      refine ⟨?_, h.2⟩
      rintro f2 w2 hev
      cases hev
      exact h.1
  | react f w =>
      simp only [EntitySystem.schedOK, Bool.true_and] at h
      refine ⟨fun _ _ hev => ?_, h⟩
      cases hev
  | deact f w =>
      simp only [EntitySystem.schedOK, Bool.true_and] at h
      refine ⟨fun _ _ hev => ?_, h⟩
      cases hev

/-- Over a scheduler-consistent run, the monitor tracks interest-set
membership and in particular never reaches the violation state. -/
theorem runEvents_alt {W : Type} (e : ℕ) :
    ∀ (evs : List (WEvent W)) (s : EntitySystem W),
      s.interested.Sorted (· < ·) → EntitySystem.schedOK s evs = true →
      altRun e (some (decide (e ∈ s.interested))) (EntitySystem.runEvents s evs).2 =
        some (decide (e ∈ (EntitySystem.runEvents s evs).1.interested)) := by
  intro evs
  induction evs with
  | nil =>
      intro s hs _
      rw [EntitySystem.runEvents, altRun_nil]
  | cons ev rest ih =>
      intro s hs hok
      obtain ⟨hg, hok2⟩ := schedOK_cons s ev rest hok
      obtain ⟨hs1, hstep⟩ := stepEv_altRun s ev e hs hg
      rw [EntitySystem.runEvents]
      show altRun e _ ((s.stepEv ev).2 ++ _) = _
      rw [altRun_append, hstep]
      exact ih (s.stepEv ev).1 hs1 hok2

/-- After an `activated e` the monitor accepts the rest of the trace only if
a `deactivated e` comes before the next `activated e`. -/
theorem altRun_active_mem (e : ℕ) :
    ∀ (l2 l3 : List SCall),
      (altRun e (some true) (l2 ++ SCall.activatedC e :: l3)).isSome = true →
      SCall.deactivatedC e ∈ l2 := by
  intro l2
  induction l2 with
  | nil =>
      intro l3 h
      rw [List.nil_append, altRun_cons] at h
      have hst : altStep e (some true) (SCall.activatedC e) = none := by
        simp [altStep]
      rw [hst, altRun_none] at h
      exact absurd h (by simp)
  | cons c l2 ih =>
      intro l3 h
      rw [List.cons_append, altRun_cons] at h
      cases c with
      | activatedC f =>
          by_cases hef : f = e
          · subst hef
            have hst : altStep f (some true) (SCall.activatedC f) = none := by
              simp [altStep]
            rw [hst, altRun_none] at h
            exact absurd h (by simp)
          · have hst : altStep e (some true) (SCall.activatedC f) = some true := by
              simp [altStep, hef]
            rw [hst] at h
            exact List.mem_cons_of_mem _ (ih l3 h)
      | deactivatedC f =>
          by_cases hef : f = e
          · subst hef
            exact List.mem_cons_self _ _
          · have hst : altStep e (some true) (SCall.deactivatedC f) = some true := by
              simp [altStep, hef]
            rw [hst] at h
            exact List.mem_cons_of_mem _ (ih l3 h)
      | reactivatedC f =>
          rw [show altStep e (some true) (SCall.reactivatedC f) = some true from rfl] at h
          exact List.mem_cons_of_mem _ (ih l3 h)
      | processC f =>
          rw [show altStep e (some true) (SCall.processC f) = some true from rfl] at h
          exact List.mem_cons_of_mem _ (ih l3 h)
      | bulkC fs =>
          rw [show altStep e (some true) (SCall.bulkC fs) = some true from rfl] at h
          exact List.mem_cons_of_mem _ (ih l3 h)

/-- A trace accepted by the monitor has a `deactivated e` between any two
`activated e` forwards. -/
theorem altRun_no_dup (e : ℕ) :
    ∀ (l1 : List SCall) (b : Bool) (l2 l3 : List SCall),
      (altRun e (some b)
        (l1 ++ SCall.activatedC e :: (l2 ++ SCall.activatedC e :: l3))).isSome = true →
      SCall.deactivatedC e ∈ l2 := by
  intro l1
  induction l1 with
  | nil =>
      intro b l2 l3 h
      rw [List.nil_append, altRun_cons] at h
      cases b with
      | true =>
          have hst : altStep e (some true) (SCall.activatedC e) = none := by
            simp [altStep]
          rw [hst, altRun_none] at h
          exact absurd h (by simp)
      | false =>
          have hst : altStep e (some false) (SCall.activatedC e) = some true := by
            simp [altStep]
          rw [hst] at h
          exact altRun_active_mem e l2 l3 h
  | cons c l1 ih =>
      intro b l2 l3 h
      rw [List.cons_append, altRun_cons] at h
      rcases hst : altStep e (some b) c with _ | b2
      · rw [hst, altRun_none] at h
        exact absurd h (by simp)
      · rw [hst] at h
        exact ih b2 l2 l3 h

/-- View a `BulkEntitySystem` as an `EntitySystem` (the two structures carry
identical data and their lifecycle impls have identical bodies). -/
def EntitySystem.ofBulk {W : Type} (b : BulkEntitySystem W) : EntitySystem W :=
  { interested := b.interested, aspect := b.aspect }

/-- One scheduler event acts identically on a `BulkEntitySystem` and on its
`EntitySystem` view. -/
theorem stepEv_ofBulk {W : Type} (b : BulkEntitySystem W) (ev : WEvent W) :
    ((EntitySystem.ofBulk b).stepEv ev).1 = EntitySystem.ofBulk (b.stepEv ev).1 ∧
    ((EntitySystem.ofBulk b).stepEv ev).2 = (b.stepEv ev).2 := by
  cases ev with
  | act f w =>
      by_cases h : b.aspect f w <;>
        simp [EntitySystem.stepEv, BulkEntitySystem.stepEv, EntitySystem.activated,
          BulkEntitySystem.activated, EntitySystem.ofBulk, h]
  | react f w =>
      by_cases hm : f ∈ b.interested <;> by_cases h : b.aspect f w <;>
        simp [EntitySystem.stepEv, BulkEntitySystem.stepEv, EntitySystem.reactivated,
          BulkEntitySystem.reactivated, EntitySystem.ofBulk, hm, h]
  | deact f w =>
      by_cases hm : f ∈ b.interested <;>
        simp [EntitySystem.stepEv, BulkEntitySystem.stepEv, EntitySystem.deactivated,
          BulkEntitySystem.deactivated, EntitySystem.ofBulk, hm]

/-- A whole scheduler run acts identically on a `BulkEntitySystem` and on
its `EntitySystem` view. -/
theorem runEvents_ofBulk {W : Type} :
    ∀ (evs : List (WEvent W)) (b : BulkEntitySystem W),
      ((EntitySystem.ofBulk b).runEvents evs).1 = EntitySystem.ofBulk (b.runEvents evs).1 ∧
      ((EntitySystem.ofBulk b).runEvents evs).2 = (b.runEvents evs).2 := by
  intro evs
  induction evs with
  | nil =>
      intro b
      exact ⟨rfl, rfl⟩
  | cons ev rest ih =>
      intro b
      obtain ⟨h1, h2⟩ := stepEv_ofBulk b ev
      rw [EntitySystem.runEvents, BulkEntitySystem.runEvents, h1, h2]
      obtain ⟨ih1, ih2⟩ := ih (b.stepEv ev).1
      rw [ih1, ih2]
      exact ⟨rfl, rfl⟩

/-- Scheduler consistency agrees between a `BulkEntitySystem` and its
`EntitySystem` view. -/
theorem schedOK_ofBulk {W : Type} :
    ∀ (evs : List (WEvent W)) (b : BulkEntitySystem W),
      EntitySystem.schedOK (EntitySystem.ofBulk b) evs = BulkEntitySystem.schedOK b evs := by
  intro evs
  induction evs with
  | nil =>
      intro b
      rfl
  | cons ev rest ih =>
      intro b
      cases ev with
      | act f w =>
          simp only [EntitySystem.schedOK, BulkEntitySystem.schedOK]
          rw [(stepEv_ofBulk b (WEvent.act f w)).1, ih (b.stepEv (WEvent.act f w)).1]
          rfl
      | react f w =>
          simp only [EntitySystem.schedOK, BulkEntitySystem.schedOK]
          rw [(stepEv_ofBulk b (WEvent.react f w)).1, ih (b.stepEv (WEvent.react f w)).1]
      | deact f w =>
          simp only [EntitySystem.schedOK, BulkEntitySystem.schedOK]
          rw [(stepEv_ofBulk b (WEvent.deact f w)).1, ih (b.stepEv (WEvent.deact f w)).1]

/-! ### C8: no duplicated activation notifications -/

/-- C8 counterexample: the scheduler delivers `activated` twice for entity 0
(the second time while 0 is already in the interest set, aspect constantly
true).  Both systems forward two `activated 0` calls back to back, with no
intervening `deactivated 0` — the claim as stated fails on the code. -/
theorem dup_activation_counterexample :
    ((EntitySystem.new (fun _ _ => true) : EntitySystem Unit).runEvents
        [WEvent.act 0 (), WEvent.act 0 ()]).2 =
      [SCall.activatedC 0, SCall.activatedC 0] ∧
    ((BulkEntitySystem.new (fun _ _ => true) : BulkEntitySystem Unit).runEvents
        [WEvent.act 0 (), WEvent.act 0 ()]).2 =
      [SCall.activatedC 0, SCall.activatedC 0] ∧
    ¬ (∀ l1 l2 l3, ((EntitySystem.new (fun _ _ => true) : EntitySystem Unit).runEvents
          [WEvent.act 0 (), WEvent.act 0 ()]).2 =
        l1 ++ SCall.activatedC 0 :: l2 ++ SCall.activatedC 0 :: l3 →
        SCall.deactivatedC 0 ∈ l2) := by
  refine ⟨by decide, by decide, fun hc => ?_⟩
  have := hc [] [] [] (by decide)
  simp at this

/-- C8 (amended: restricted to scheduler-consistent sequences, in which
`activated` is never delivered for an entity already in the interest set —
the counterexample shows the unrestricted claim fails): starting from a
fresh system, for every finite event sequence the strategy never receives
two `activated` forwards for the same entity without an intervening
`deactivated` forward for that entity — for `EntitySystem` and
`BulkEntitySystem` alike. -/
theorem no_duplicate_activation {W : Type} (aspect : ℕ → W → Bool)
    (evs : List (WEvent W)) (e : ℕ)
    (hsched : (EntitySystem.new aspect).schedOK evs = true)
    (_hbsched : (BulkEntitySystem.new aspect).schedOK evs = true) :
    (∀ l1 l2 l3, ((EntitySystem.new aspect).runEvents evs).2 =
        l1 ++ SCall.activatedC e :: (l2 ++ SCall.activatedC e :: l3) →
        SCall.deactivatedC e ∈ l2) ∧
    (∀ l1 l2 l3, ((BulkEntitySystem.new aspect).runEvents evs).2 =
        l1 ++ SCall.activatedC e :: (l2 ++ SCall.activatedC e :: l3) →
        SCall.deactivatedC e ∈ l2) := by
  have hmain : ∀ l1 l2 l3, ((EntitySystem.new aspect).runEvents evs).2 =
      l1 ++ SCall.activatedC e :: (l2 ++ SCall.activatedC e :: l3) →
      SCall.deactivatedC e ∈ l2 := by
    intro l1 l2 l3 htr
    have hs0 : (EntitySystem.new aspect).interested.Sorted (· < ·) := by
      simp [EntitySystem.new]
    have halt := runEvents_alt e evs (EntitySystem.new aspect) hs0 hsched
    have hb : decide (e ∈ (EntitySystem.new aspect).interested) = false := by
      simp [EntitySystem.new]
    rw [hb, htr] at halt
    apply altRun_no_dup e l1 false l2 l3
    rw [halt]
    rfl
  refine ⟨hmain, ?_⟩
  have hofb : EntitySystem.ofBulk (BulkEntitySystem.new aspect) =
      EntitySystem.new aspect := rfl
  have htr := (runEvents_ofBulk evs (BulkEntitySystem.new aspect)).2
  rw [hofb] at htr
  intro l1 l2 l3 hdec
  exact hmain l1 l2 l3 (htr.trans hdec)

/-- Witness for C8 (amended) on the consistent sequence
`activated 0, deactivated 0, activated 0`: the forwarded trace decomposes
around its two `activated 0` calls with the forwarded `deactivated 0`
in between. -/
theorem no_duplicate_activation_witness :
    SCall.deactivatedC 0 ∈ [SCall.deactivatedC 0] :=
  (no_duplicate_activation (fun _ _ => true)
      [WEvent.act 0 (), WEvent.deact 0 (), WEvent.act 0 ()] 0
      (by decide) (by decide)).1 [] [SCall.deactivatedC 0] [] (by decide)
